import Mathlib

/-!
Shallow embedding of src/search_tree.cpp: the class templates TSearchTree,
TAvlTree and TAvlTreeWithSize, specialized to integer values (the demo and
the command processor instantiate them at int64_t; Int is used here, with a
comment where width could matter).  The three C++ node shapes (Node, AvlNode,
AvlNodeWithSize) are modelled by one inductive carrier holding every
augmentation field; the base engine never reads the height and size fields
and the AVL layer never reads the size field, so the extra fields are inert
for the smaller variants.  Child pointers are the recursive structure; the
parent back pointers of the C++ code are redundant with the structure (each
operation rethreads them so that a child points back to its structural
parent) and are consulted only by the iterator classes, which no definition
below needs, so they are not modelled.  The virtual hooks Balance and
RenewNodesHeight become explicit function parameters; mutation of a node in
place becomes construction of a node with the changed field.
-/

namespace AvlSpec

/-- Node carrier covering Node, AvlNode and AvlNodeWithSize: fields value_,
cnt_, height_, size_ and the two owned children left_ and right_.  The C++
initializers are cnt_ = 1, height_ = 1, size_ = 1. -/
inductive Node : Type where
  | nil : Node
  | node (value : Int) (cnt : Nat) (height : Nat) (size : Nat)
      (left : Node) (right : Node) : Node
deriving DecidableEq

namespace Node

/-- In-order list of (value_, cnt_) pairs of a subtree. -/
def toVC : Node → List (Int × Nat)
  | nil => []
  | node v c _ _ l r => toVC l ++ (v, c) :: toVC r

/-- In-order list of values of a subtree. -/
def toList (t : Node) : List Int := (toVC t).map Prod.fst

/-- Number of nodes of a subtree. -/
def numNodes : Node → Nat
  | nil => 0
  | node _ _ _ _ l r => numNodes l + numNodes r + 1

end Node

open Node

/-- NodeHeight of TAvlTree: the stored height_, 0 for an absent subtree. -/
def NodeHeight : Node → Nat
  | nil => 0
  | node _ _ h _ _ _ => h

/-- NodeSize of TAvlTreeWithSize: the stored size_, 0 for an absent subtree. -/
def NodeSize : Node → Nat
  | nil => 0
  | node _ _ _ s _ _ => s

/-- HeightDiff of TAvlTree: stored height of left_ minus stored height of
right_, 0 for an absent node.  The C++ subtracts two size_t values and the
result is converted to int; for the heights that can actually be stored the
wrapped conversion equals the signed difference modelled here. -/
def HeightDiff : Node → Int
  | nil => 0
  | node _ _ _ _ l r => (NodeHeight l : Int) - (NodeHeight r : Int)

/-- RenewNodesHeight of TAvlTree: height_ becomes
max (NodeHeight right_) (NodeHeight left_) + 1; no-op on an absent node. -/
def RenewNodesHeightAvl : Node → Node
  | nil => nil
  | node v c _ s l r => node v c (max (NodeHeight r) (NodeHeight l) + 1) s l r

/-- RenewNodesHeight override of TAvlTreeWithSize: height_ as in the AVL
layer, and size_ becomes NodeSize right_ + NodeSize left_ + 1. -/
def RenewNodesHeightWithSize : Node → Node
  | nil => nil
  | node v c _ _ l r =>
      node v c (max (NodeHeight r) (NodeHeight l) + 1)
        (NodeSize r + NodeSize l + 1) l r

/-- RotateRight of TAvlTree: son = left_ of node, T2 = right_ of son; son
takes node as right_ child, node takes T2 as left_ child, then
RenewNodesHeight runs on node and then on son, and son is returned.  The C++
dereferences son unconditionally, so the function is only ever applied to a
node with a present left_ child (BalanceNode and RightRotation guarantee
this); the catch-all branch returns the argument and is unreachable from
those call sites. -/
def RotateRight (renew : Node → Node) : Node → Node
  | node v c h s (node lv lc lh ls ll lr) r =>
      renew (node lv lc lh ls ll (renew (node v c h s lr r)))
  | t => t

/-- RotateLeft of TAvlTree, the mirror image of RotateRight: son = right_,
T2 = left_ of son. -/
def RotateLeft (renew : Node → Node) : Node → Node
  | node v c h s l (node rv rc rh rs rl rr) =>
      renew (node rv rc rh rs (renew (node v c h s l rl)) rr)
  | t => t

/-- RightRotation of TAvlTree: if the left child has nonnegative HeightDiff a
single RotateRight, otherwise first RotateLeft on the left child and then
RotateRight.  BalanceNode only calls this on a present node. -/
def RightRotation (renew : Node → Node) : Node → Node
  | nil => nil
  | node v c h s l r =>
      if HeightDiff l ≥ 0 then RotateRight renew (node v c h s l r)
      else RotateRight renew (node v c h s (RotateLeft renew l) r)

/-- LeftRotation of TAvlTree: if the right child has nonpositive HeightDiff a
single RotateLeft, otherwise first RotateRight on the right child and then
RotateLeft. -/
def LeftRotation (renew : Node → Node) : Node → Node
  | nil => nil
  | node v c h s l r =>
      if HeightDiff r ≤ 0 then RotateLeft renew (node v c h s l r)
      else RotateLeft renew (node v c h s l (RotateRight renew r))

/-- BalanceNode of TAvlTree: nothing on an absent node; otherwise
RenewNodesHeight, then LeftRotation when the height difference is below -1,
RightRotation when it is above 1, and the node itself otherwise. -/
def BalanceNode (renew : Node → Node) (t : Node) : Node :=
  match t with
  | nil => nil
  | node v c h s l r =>
      let t1 := renew (node v c h s l r)
      if HeightDiff t1 < -1 then LeftRotation renew t1
      else if HeightDiff t1 > 1 then RightRotation renew t1
      else t1

/-- Balance hook of TAvlTree (BalanceNode with the AVL RenewNodesHeight). -/
def BalanceAvl : Node → Node := BalanceNode RenewNodesHeightAvl

/-- Balance hook of TAvlTreeWithSize (BalanceNode with the RenewNodesHeight
override that also maintains size_). -/
def BalanceWithSize : Node → Node := BalanceNode RenewNodesHeightWithSize

/-- Balance hook of the base TSearchTree: the identity. -/
def BalanceBase : Node → Node := fun t => t

/-- CreateNode: a fresh leaf with cnt_ = 1; the AVL variants initialize
height_ = 1 and size_ = 1 (inert fields for the smaller variants). -/
def CreateNode (v : Int) : Node := node v 1 1 1 nil nil

/-- InsertIfFound applied to the cnt_ field of the matched node: incremented
in multiset mode, untouched otherwise. -/
def InsertIfFound (isMulti : Bool) (c : Nat) : Nat :=
  if isMulti then c + 1 else c

/-- InsertRecursive of TSearchTree.  The second component counts the
executions of the statement size_ += 1 (one when a node is created, zero
otherwise); the virtual Balance hook is the parameter bal.  An absent slot
returns the created node directly (no Balance call on that branch, matching
the early return); every other branch returns Balance of the node. -/
def InsertRecursive (isMulti : Bool) (bal : Node → Node) (v : Int) :
    Node → Node × Nat
  | nil => (CreateNode v, 1)
  | node w c h s l r =>
      if w = v then (bal (node w (InsertIfFound isMulti c) h s l r), 0)
      else if w > v then
        let p := InsertRecursive isMulti bal v l
        (bal (node w c h s p.1 r), p.2)
      else
        let p := InsertRecursive isMulti bal v r
        (bal (node w c h s l p.1), p.2)

/-- FindMin composed with the read half of SwapNodesValue: the (value_, cnt_)
pair of the leftmost node of a subtree.  FindMin of an absent node is null in
the C++ code and is never dereferenced on the paths modelled here; the nil
branch is an unreachable placeholder. -/
def FindMinVC : Node → Int × Nat
  | nil => (0, 1)
  | node v c _ _ nil _ => (v, c)
  | node _ _ _ _ (node lv lc lh ls ll lr) _ => FindMinVC (node lv lc lh ls ll lr)

/-- Write half of SwapNodesValue: the leftmost node of the subtree receives
value_ = v and cnt_ = c; all other fields and nodes are untouched. -/
def SwapIntoMin (t : Node) (v : Int) (c : Nat) : Node :=
  match t with
  | nil => nil
  | node _ _ h s nil r => node v c h s nil r
  | node w c0 h s (node lv lc lh ls ll lr) r =>
      node w c0 h s (SwapIntoMin (node lv lc lh ls ll lr) v c) r

theorem numNodes_SwapIntoMin (t : Node) (v : Int) (c : Nat) :
    numNodes (SwapIntoMin t v c) = numNodes t := by
  induction t with
  | nil => rfl
  | node w c0 h s l r ihl ihr =>
      cases l with
      | nil => rfl
      | node lv lc lh ls ll lr =>
          simp [SwapIntoMin, numNodes, ihl]

mutual

/-- EraseRecursive of TSearchTree: descend by comparison; on a match defer to
EraseIfFound; otherwise return the node with the child replaced by the
recursive result.  No Balance call appears anywhere on the erase path (the
C++ returns node directly). -/
def EraseRecursive (v : Int) (t : Node) : Node :=
  match t with
  | nil => nil
  | node w c h s l r =>
      if w = v then EraseIfFound (node w c h s l r)
      else if w > v then node w c h s (EraseRecursive v l) r
      else node w c h s l (EraseRecursive v r)
  termination_by (numNodes t, 1)
  decreasing_by
    all_goals first
      | (apply Prod.Lex.right; omega)
      | (apply Prod.Lex.left; simp [numNodes]; omega)

/-- EraseIfFound of TSearchTree: with at most one child the present child (or
nothing) replaces the node; with two children the node swaps value_ and cnt_
with the minimum of the right subtree (FindMinVC / SwapIntoMin model the two
halves of FindMin plus SwapNodesValue) and then the moved value, now sitting
at the leftmost position of the right subtree, is erased from it.  The
stored height_ and size_ of the node are left untouched. -/
def EraseIfFound (t : Node) : Node :=
  match t with
  | nil => nil
  | node w c h s l r =>
      match l, r with
      | nil, _ => r
      | node a b d e f g, nil => node a b d e f g
      | node la lb lc ld le lf, node ra rb rc rd re rf =>
          let mvc := FindMinVC (node ra rb rc rd re rf)
          node mvc.1 mvc.2 h s (node la lb lc ld le lf)
            (EraseRecursive w (SwapIntoMin (node ra rb rc rd re rf) w c))
  termination_by (numNodes t, 0)
  decreasing_by
    all_goals apply Prod.Lex.left
    all_goals simp [numNodes, numNodes_SwapIntoMin]
    all_goals omega

end

/-- FindRecursive of TSearchTree, reduced to the membership bit that Exsist
extracts from the returned pointer. -/
def FindB (v : Int) : Node → Bool
  | nil => false
  | node w _ _ _ l r =>
      if w = v then true else if w > v then FindB v l else FindB v r

/-- Loop body of Next: walk down from the root keeping the best candidate
seen, a node strictly greater than the query that improves on the previous
candidate; descend left after a candidate, right otherwise.  The candidate
is modelled by its value (the returned iterator exposes exactly validity and
the pointed-to value). -/
def NextDescend (x : Int) : Node → Option Int → Option Int
  | nil, acc => acc
  | node v _ _ _ l r, acc =>
      if v > x then
        NextDescend x l
          (match acc with
           | none => some v
           | some a => if v < a then some v else some a)
      else NextDescend x r acc

/-- Loop body of Prev, the mirror image of NextDescend. -/
def PrevDescend (x : Int) : Node → Option Int → Option Int
  | nil, acc => acc
  | node v _ _ _ l r, acc =>
      if v < x then
        PrevDescend x r
          (match acc with
           | none => some v
           | some a => if v > a then some v else some a)
      else PrevDescend x l acc

/-- Tree object state: the owned root and the running size_ counter. -/
structure TreeState where
  root : Node
  size : Nat
deriving DecidableEq

/-- Freshly constructed tree: null root, size_ = 0. -/
def emptyTree : TreeState := ⟨nil, 0⟩

/-- Insert member function: root_ becomes the InsertRecursive result and
size_ grows by the number of created nodes; the root parent reset touches a
pointer not modelled here.  InsertRecursive never returns an absent node, so
the reset is harmless in the C++ as well. -/
def Insert (isMulti : Bool) (bal : Node → Node) (v : Int) (st : TreeState) :
    TreeState :=
  let p := InsertRecursive isMulti bal v st.root
  ⟨p.1, st.size + p.2⟩

/-- Erase member function: root_ becomes the EraseRecursive result and then
the statement root_->parent_ = ... dereferences root_; when the new root is
null that is a null dereference, modelled as none.  size_ is never
decremented on the erase path. -/
def Erase (v : Int) (st : TreeState) : Option TreeState :=
  match EraseRecursive v st.root with
  | nil => none
  | node w c h s l r => some ⟨node w c h s l r, st.size⟩

/-- Exsist member function (spelling of the source): membership via
FindRecursive. -/
def Exsist (v : Int) (st : TreeState) : Bool := FindB v st.root

/-- Size member function: the stored size_ counter. -/
def Size (st : TreeState) : Nat := st.size

/-- Empty member function: size_ == 0. -/
def Empty (st : TreeState) : Bool := st.size == 0

/-- Next member function: value of the returned iterator, none when the
iterator is invalid. -/
def Next (x : Int) (st : TreeState) : Option Int := NextDescend x st.root none

/-- Prev member function: value of the returned iterator, none when the
iterator is invalid. -/
def Prev (x : Int) (st : TreeState) : Option Int := PrevDescend x st.root none

/-- One public mutating operation of the command surface. -/
inductive Op : Type where
  | ins (v : Int) : Op
  | del (v : Int) : Op
deriving DecidableEq

/-- Run a sequence of Insert and Erase calls from a state; none as soon as
one Erase call dereferences a null root. -/
def RunOps (isMulti : Bool) (bal : Node → Node) :
    List Op → TreeState → Option TreeState
  | [], st => some st
  | Op.ins v :: ops, st => RunOps isMulti bal ops (Insert isMulti bal v st)
  | Op.del v :: ops, st =>
      match Erase v st with
      | none => none
      | some st1 => RunOps isMulti bal ops st1

/-- BST order invariant of the specification: at every node all values of the
left subtree are strictly below the value and all values of the right
subtree strictly above. -/
def bstB : Node → Bool
  | nil => true
  | node v _ _ _ l r =>
      bstB l && bstB r && (toList l).all (fun y => y < v)
        && (toList r).all (fun y => v < y)

/-- Stored-height correctness: at every node height_ equals the recomputed
value max of the children heights plus one. -/
def heightsOkB : Node → Bool
  | nil => true
  | node _ _ h _ l r =>
      (h == max (NodeHeight l) (NodeHeight r) + 1) && heightsOkB l && heightsOkB r

/-- Stored-size correctness: at every node size_ equals the recomputed value
one plus the sizes of the children. -/
def sizesOkB : Node → Bool
  | nil => true
  | node _ _ _ s l r =>
      (s == NodeSize l + NodeSize r + 1) && sizesOkB l && sizesOkB r

/-- AVL balance invariant on stored heights: the height difference at every
node lies in [-1, 1]. -/
def balancedB : Node → Bool
  | nil => true
  | node _ _ _ _ l r =>
      (((NodeHeight l : Int) - (NodeHeight r : Int)).natAbs ≤ 1 : Bool)
        && balancedB l && balancedB r

/-- Occurrence count of a value in an in-order (value_, cnt_) list. -/
def cntOfL (v : Int) (L : List (Int × Nat)) : Nat :=
  ((L.filter fun p => p.1 == v).map Prod.snd).sum

/-- Occurrence count of a value: sum of cnt_ over the nodes holding it. -/
def cntOf (v : Int) (t : Node) : Nat := cntOfL v (toVC t)

/-- Predicate that every stored cnt_ equals 1. -/
def allCntOneB (t : Node) : Bool := ((toVC t).map Prod.snd).all (· == 1)

/-- Predicate that every stored cnt_ is at least 1. -/
def allCntPosB (t : Node) : Bool := ((toVC t).map Prod.snd).all (1 ≤ ·)

/-- Left child accessor (the left() helper of the C++ node types). -/
def Node.left : Node → Node
  | nil => nil
  | node _ _ _ _ l _ => l

/-- Right child accessor (the right() helper of the C++ node types). -/
def Node.right : Node → Node
  | nil => nil
  | node _ _ _ _ _ r => r

/-!
Specification-side list gadgets.  They are not part of the embedding: they
describe, on in-order lists, what the tree operations do, and the lemmas
below prove that the embedded operations realize them.
-/

/-- Effect of a found or not-found insertion on the in-order list. -/
def insVC (m : Bool) (v : Int) : List (Int × Nat) → List (Int × Nat)
  | [] => [(v, 1)]
  | (w, c) :: xs =>
      if w = v then (w, InsertIfFound m c) :: xs
      else if w > v then (v, 1) :: (w, c) :: xs
      else (w, c) :: insVC m v xs

/-- Removal of the first pair holding a value from an in-order list. -/
def delVC (v : Int) : List (Int × Nat) → List (Int × Nat)
  | [] => []
  | (w, c) :: xs => if w = v then xs else (w, c) :: delVC v xs

/-- Minimum of two optional values, none meaning plus infinity. -/
def omin : Option Int → Option Int → Option Int
  | none, b => b
  | some a, none => some a
  | some a, some b => some (min a b)

/-- Maximum of two optional values, none meaning minus infinity. -/
def omax : Option Int → Option Int → Option Int
  | none, b => b
  | some a, none => some a
  | some a, some b => some (max a b)

/-- Least list element strictly above a bound, if any. -/
def minGt (x : Int) : List Int → Option Int
  | [] => none
  | y :: ys => if x < y then omin (some y) (minGt x ys) else minGt x ys

/-- Greatest list element strictly below a bound, if any. -/
def maxLt (x : Int) : List Int → Option Int
  | [] => none
  | y :: ys => if y < x then omax (some y) (maxLt x ys) else maxLt x ys

end AvlSpec

namespace AvlSpec

open Node

/-!
Basic facts about the in-order list and the rebalancing helpers: every
rotation and the whole Balance hook permute the tree shape without touching
the in-order (value_, cnt_) sequence.
-/

theorem toList_nil : toList nil = [] := rfl

theorem toList_node (v : Int) (c h s : Nat) (l r : Node) :
    toList (node v c h s l r) = toList l ++ v :: toList r := by
  simp [toList, toVC]

theorem numNodes_eq_length_toVC (t : Node) : numNodes t = (toVC t).length := by
  induction t with
  | nil => rfl
  | node v c h s l r ihl ihr => simp [numNodes, toVC, ihl, ihr]; omega

theorem toVC_RenewNodesHeightAvl (t : Node) :
    toVC (RenewNodesHeightAvl t) = toVC t := by
  cases t <;> rfl

theorem toVC_RenewNodesHeightWithSize (t : Node) :
    toVC (RenewNodesHeightWithSize t) = toVC t := by
  cases t <;> rfl

theorem toVC_RotateRight (renew : Node → Node)
    (hren : ∀ u, toVC (renew u) = toVC u) (t : Node) :
    toVC (RotateRight renew t) = toVC t := by
  cases t with
  | nil => rfl
  | node v c h s l r =>
      cases l with
      | nil => rfl
      | node lv lc lh ls ll lr => simp [RotateRight, hren, toVC]

theorem toVC_RotateLeft (renew : Node → Node)
    (hren : ∀ u, toVC (renew u) = toVC u) (t : Node) :
    toVC (RotateLeft renew t) = toVC t := by
  cases t with
  | nil => rfl
  | node v c h s l r =>
      cases r with
      | nil => rfl
      | node rv rc rh rs rl rr => simp [RotateLeft, hren, toVC]

theorem toVC_RightRotation (renew : Node → Node)
    (hren : ∀ u, toVC (renew u) = toVC u) (t : Node) :
    toVC (RightRotation renew t) = toVC t := by
  cases t with
  | nil => rfl
  | node v c h s l r =>
      by_cases hd : HeightDiff l ≥ 0 <;>
        simp [RightRotation, hd, toVC_RotateRight renew hren,
          toVC_RotateLeft renew hren, toVC]

theorem toVC_LeftRotation (renew : Node → Node)
    (hren : ∀ u, toVC (renew u) = toVC u) (t : Node) :
    toVC (LeftRotation renew t) = toVC t := by
  cases t with
  | nil => rfl
  | node v c h s l r =>
      by_cases hd : HeightDiff r ≤ 0 <;>
        simp [LeftRotation, hd, toVC_RotateRight renew hren,
          toVC_RotateLeft renew hren, toVC]

theorem toVC_BalanceNode (renew : Node → Node)
    (hren : ∀ u, toVC (renew u) = toVC u) (t : Node) :
    toVC (BalanceNode renew t) = toVC t := by
  cases t with
  | nil => rfl
  | node v c h s l r =>
      simp only [BalanceNode]
      split_ifs
      · rw [toVC_LeftRotation renew hren, hren]
      · rw [toVC_RightRotation renew hren, hren]
      · rw [hren]

theorem toVC_BalanceAvl (t : Node) : toVC (BalanceAvl t) = toVC t :=
  toVC_BalanceNode _ toVC_RenewNodesHeightAvl t

theorem toVC_BalanceWithSize (t : Node) : toVC (BalanceWithSize t) = toVC t :=
  toVC_BalanceNode _ toVC_RenewNodesHeightWithSize t

theorem toVC_BalanceBase (t : Node) : toVC (BalanceBase t) = toVC t := rfl

/-!
The structural BST predicate is equivalent to strict sortedness of the
in-order value list, so any toVC-preserving rearrangement preserves it.
-/

theorem bstB_node_iff (v : Int) (c h s : Nat) (l r : Node) :
    bstB (node v c h s l r) = true ↔
      bstB l = true ∧ bstB r = true ∧ (∀ y ∈ toList l, y < v)
        ∧ (∀ y ∈ toList r, v < y) := by
  simp [bstB, List.all_eq_true, and_assoc]

theorem bstB_iff_pairwise (t : Node) :
    bstB t = true ↔ (toList t).Pairwise (· < ·) := by
  induction t with
  | nil => simp [bstB, toList, toVC]
  | node v c h s l r ihl ihr =>
      rw [bstB_node_iff, toList_node, List.pairwise_append, List.pairwise_cons,
        ihl, ihr]
      constructor
      · rintro ⟨hl, hr, hlv, hvr⟩
        refine ⟨hl, ⟨fun b hb => hvr b hb, hr⟩, ?_⟩
        rintro a ha b hb
        rcases List.mem_cons.mp hb with rfl | hb2
        · exact hlv a ha
        · exact lt_trans (hlv a ha) (hvr b hb2)
      · rintro ⟨hl, ⟨hvr, hr⟩, hcross⟩
        exact ⟨hl, hr, fun y hy => hcross y hy v (List.mem_cons_self v _),
          hvr⟩

end AvlSpec

namespace AvlSpec

open Node

/-!
List-level behaviour of insertion.
-/

theorem insVC_append_lt (m : Bool) (v w : Int) (c : Nat)
    (L1 L2 : List (Int × Nat)) (hvw : v < w) :
    insVC m v (L1 ++ (w, c) :: L2) = insVC m v L1 ++ (w, c) :: L2 := by
  induction L1 with
  | nil =>
      simp [insVC, (show ¬ w = v by omega), (show w > v by omega)]
  | cons p L1 ih =>
      obtain ⟨u, cu⟩ := p
      by_cases h1 : u = v
      · simp [insVC, h1]
      · by_cases h2 : u > v
        · simp [insVC, h1, h2]
        · simp [insVC, h1, h2, ih]

theorem insVC_append_gt (m : Bool) (v w : Int) (c : Nat)
    (L1 L2 : List (Int × Nat)) (h1 : ∀ p ∈ L1, p.1 < v) (hwv : w < v) :
    insVC m v (L1 ++ (w, c) :: L2) = L1 ++ (w, c) :: insVC m v L2 := by
  induction L1 with
  | nil =>
      simp [insVC, (show ¬ w = v by omega), (show ¬ w > v by omega)]
  | cons p L1 ih =>
      obtain ⟨u, cu⟩ := p
      have hu : u < v := h1 (u, cu) (List.mem_cons_self _ _)
      simp only [List.cons_append, insVC, if_neg (show ¬ u = v by omega),
        if_neg (show ¬ u > v by omega), List.append_eq]
      rw [ih (fun p hp => h1 p (List.mem_cons_of_mem _ hp))]

theorem insVC_found (m : Bool) (v : Int) (c : Nat)
    (L1 L2 : List (Int × Nat)) (h1 : ∀ p ∈ L1, p.1 < v) :
    insVC m v (L1 ++ (v, c) :: L2) = L1 ++ (v, InsertIfFound m c) :: L2 := by
  induction L1 with
  | nil => simp [insVC]
  | cons p L1 ih =>
      obtain ⟨u, cu⟩ := p
      have hu : u < v := h1 (u, cu) (List.mem_cons_self _ _)
      simp only [List.cons_append, insVC, if_neg (show ¬ u = v by omega),
        if_neg (show ¬ u > v by omega), List.append_eq]
      rw [ih (fun p hp => h1 p (List.mem_cons_of_mem _ hp))]

theorem mem_fst_insVC (m : Bool) (v y : Int) (L : List (Int × Nat)) :
    y ∈ (insVC m v L).map Prod.fst ↔ y = v ∨ y ∈ L.map Prod.fst := by
  induction L with
  | nil => simp [insVC]
  | cons p L ih =>
      obtain ⟨u, cu⟩ := p
      by_cases h1 : u = v
      · subst h1
        simp [insVC]
      · by_cases h2 : u > v
        · simp [insVC, h1, h2]
        · simp [insVC, h1, h2, ih]
          all_goals tauto

theorem pairwise_fst_insVC (m : Bool) (v : Int) (L : List (Int × Nat))
    (h : (L.map Prod.fst).Pairwise (· < ·)) :
    ((insVC m v L).map Prod.fst).Pairwise (· < ·) := by
  induction L with
  | nil => simp [insVC]
  | cons p L ih =>
      obtain ⟨u, cu⟩ := p
      simp only [List.map_cons, List.pairwise_cons] at h
      obtain ⟨hu, hL⟩ := h
      by_cases h1 : u = v
      · subst h1
        have hins : insVC m u ((u, cu) :: L) = (u, InsertIfFound m cu) :: L := by
          simp [insVC]
        rw [hins]
        simp only [List.map_cons, List.pairwise_cons]
        exact ⟨hu, hL⟩
      · by_cases h2 : u > v
        · simp only [insVC, if_neg h1, if_pos h2, List.map_cons,
            List.pairwise_cons]
          refine ⟨?_, hu, hL⟩
          rintro y hy
          rcases List.mem_cons.mp hy with rfl | hy2
          · exact h2
          · exact lt_trans h2 (hu y hy2)
        · simp only [insVC, if_neg h1, if_neg h2, List.map_cons,
            List.pairwise_cons]
          refine ⟨?_, ih hL⟩
          intro y hy
          rcases (mem_fst_insVC m v y L).mp hy with rfl | hy2
          · omega
          · exact hu y hy2

theorem length_insVC_mem (m : Bool) (v : Int) (L : List (Int × Nat))
    (h : (L.map Prod.fst).Pairwise (· < ·)) (hv : v ∈ L.map Prod.fst) :
    (insVC m v L).length = L.length := by
  induction L with
  | nil => simp at hv
  | cons p L ih =>
      obtain ⟨u, cu⟩ := p
      simp only [List.map_cons, List.pairwise_cons] at h
      obtain ⟨hu, hL⟩ := h
      by_cases h1 : u = v
      · subst h1
        simp [insVC]
      · have hv2 : v ∈ L.map Prod.fst := by
          rcases List.mem_cons.mp hv with rfl | h2
          · exact absurd rfl h1
          · exact h2
        have huv : u < v := hu v hv2
        simp only [insVC, if_neg h1, if_neg (show ¬ u > v by omega),
          List.length_cons]
        rw [ih hL hv2]

theorem insVC_set_found (v : Int) (L : List (Int × Nat))
    (h : (L.map Prod.fst).Pairwise (· < ·)) (hv : v ∈ L.map Prod.fst) :
    insVC false v L = L := by
  induction L with
  | nil => simp at hv
  | cons p L ih =>
      obtain ⟨u, cu⟩ := p
      simp only [List.map_cons, List.pairwise_cons] at h
      obtain ⟨hu, hL⟩ := h
      by_cases h1 : u = v
      · subst h1
        simp [insVC, InsertIfFound]
      · have hv2 : v ∈ L.map Prod.fst := by
          rcases List.mem_cons.mp hv with rfl | h2
          · exact absurd rfl h1
          · exact h2
        have huv : u < v := hu v hv2
        simp only [insVC, if_neg h1, if_neg (show ¬ u > v by omega)]
        rw [ih hL hv2]

theorem cntOfL_insVC_self (v : Int) (L : List (Int × Nat))
    (h : (L.map Prod.fst).Pairwise (· < ·)) (hv : v ∈ L.map Prod.fst) :
    cntOfL v (insVC true v L) = cntOfL v L + 1 := by
  induction L with
  | nil => simp at hv
  | cons p L ih =>
      obtain ⟨u, cu⟩ := p
      simp only [List.map_cons, List.pairwise_cons] at h
      obtain ⟨hu, hL⟩ := h
      by_cases h1 : u = v
      · subst h1
        simp [insVC, cntOfL, InsertIfFound, List.filter]
        omega
      · have hv2 : v ∈ L.map Prod.fst := by
          rcases List.mem_cons.mp hv with rfl | h2
          · exact absurd rfl h1
          · exact h2
        have huv : u < v := hu v hv2
        simp only [insVC, if_neg h1, if_neg (show ¬ u > v by omega)]
        simp only [cntOfL, List.filter_cons] at ih ⊢
        rw [if_neg (by simp [h1]), if_neg (by simp [h1])] at *
        exact ih hL hv2

end AvlSpec

namespace AvlSpec

open Node

theorem toList_eq_map_fst (t : Node) : toList t = (toVC t).map Prod.fst := rfl

/-!
Characterization of InsertRecursive: on a BST it realizes insVC on the
in-order list, and the size_ increment happens exactly when the value was
absent.
-/

theorem InsertRecursive_spec (m : Bool) (bal : Node → Node)
    (hbal : ∀ u, toVC (bal u) = toVC u) (v : Int) (t : Node)
    (hb : bstB t = true) :
    toVC (InsertRecursive m bal v t).1 = insVC m v (toVC t) ∧
    (InsertRecursive m bal v t).2 = (if v ∈ toList t then 0 else 1) := by
  induction t with
  | nil => simp [InsertRecursive, CreateNode, insVC, toVC, toList]
  | node w c h s l r ihl ihr =>
      rw [bstB_node_iff] at hb
      obtain ⟨hbl, hbr, hlv, hvr⟩ := hb
      have harg : ∀ p ∈ toVC l, p.1 < w :=
        fun p hp => hlv p.1 (List.mem_map_of_mem Prod.fst hp)
      by_cases h1 : w = v
      · subst h1
        have hstep : InsertRecursive m bal w (node w c h s l r)
            = (bal (node w (InsertIfFound m c) h s l r), 0) := by
          simp [InsertRecursive]
        constructor
        · rw [hstep, hbal]
          simp only [toVC]
          rw [insVC_found m w c _ _ harg]
        · rw [hstep]
          simp [toList_node]
      · by_cases h2 : w > v
        · have hstep : InsertRecursive m bal v (node w c h s l r)
              = (bal (node w c h s (InsertRecursive m bal v l).1 r),
                  (InsertRecursive m bal v l).2) := by
            simp [InsertRecursive, h1, h2]
          obtain ⟨ih1, ih2⟩ := ihl hbl
          constructor
          · rw [hstep, hbal]
            simp only [toVC]
            rw [ih1, insVC_append_lt m v w c _ _ (by omega)]
          · rw [hstep, ih2]
            have hmem : (v ∈ toList (node w c h s l r)) ↔ v ∈ toList l := by
              rw [toList_node]
              simp only [List.mem_append, List.mem_cons]
              constructor
              · rintro (hml | rfl | hmr)
                · exact hml
                · exact absurd h2 (lt_irrefl v)
                · exact absurd (hvr v hmr) (by omega)
              · exact fun hml => Or.inl hml
            rw [if_congr hmem rfl rfl]
        · have hwv : w < v := by omega
          have hstep : InsertRecursive m bal v (node w c h s l r)
              = (bal (node w c h s l (InsertRecursive m bal v r).1),
                  (InsertRecursive m bal v r).2) := by
            simp [InsertRecursive, h1, h2]
          obtain ⟨ih1, ih2⟩ := ihr hbr
          constructor
          · rw [hstep, hbal]
            simp only [toVC]
            rw [ih1, insVC_append_gt m v w c _ _
              (fun p hp => lt_trans (harg p hp) hwv) hwv]
          · rw [hstep, ih2]
            have hmem : (v ∈ toList (node w c h s l r)) ↔ v ∈ toList r := by
              rw [toList_node]
              simp only [List.mem_append, List.mem_cons]
              constructor
              · rintro (hml | rfl | hmr)
                · exact absurd (hlv v hml) (by omega)
                · exact absurd hwv (lt_irrefl v)
                · exact hmr
              · exact fun hmr => Or.inr (Or.inr hmr)
            rw [if_congr hmem rfl rfl]

theorem bstB_InsertRecursive (m : Bool) (bal : Node → Node)
    (hbal : ∀ u, toVC (bal u) = toVC u) (v : Int) (t : Node)
    (hb : bstB t = true) :
    bstB (InsertRecursive m bal v t).1 = true := by
  rw [bstB_iff_pairwise, toList_eq_map_fst,
    (InsertRecursive_spec m bal hbal v t hb).1]
  apply pairwise_fst_insVC
  rw [← toList_eq_map_fst, ← bstB_iff_pairwise]
  exact hb

end AvlSpec

namespace AvlSpec

open Node

/-!
Unfolding equations for the well-founded erase definitions, in the shape the
proofs below consume.
-/

theorem EraseRecursive_nil (v : Int) : EraseRecursive v nil = nil := by
  simp [EraseRecursive]

theorem EraseRecursive_node (v w : Int) (c h s : Nat) (l r : Node) :
    EraseRecursive v (node w c h s l r)
      = if w = v then EraseIfFound (node w c h s l r)
        else if w > v then node w c h s (EraseRecursive v l) r
        else node w c h s l (EraseRecursive v r) := by
  simp [EraseRecursive]

theorem EraseIfFound_nilLeft (w : Int) (c h s : Nat) (r : Node) :
    EraseIfFound (node w c h s nil r) = r := by
  simp [EraseIfFound]

theorem EraseIfFound_nilRight (w : Int) (c h s : Nat)
    (p1 : Int) (p2 p3 p4 : Nat) (p5 p6 : Node) :
    EraseIfFound (node w c h s (node p1 p2 p3 p4 p5 p6) nil)
      = node p1 p2 p3 p4 p5 p6 := by
  simp [EraseIfFound]

theorem EraseIfFound_two (w : Int) (c h s : Nat)
    (p1 : Int) (p2 p3 p4 : Nat) (p5 p6 : Node)
    (q1 : Int) (q2 q3 q4 : Nat) (q5 q6 : Node) :
    EraseIfFound
        (node w c h s (node p1 p2 p3 p4 p5 p6) (node q1 q2 q3 q4 q5 q6))
      = node (FindMinVC (node q1 q2 q3 q4 q5 q6)).1
          (FindMinVC (node q1 q2 q3 q4 q5 q6)).2 h s
          (node p1 p2 p3 p4 p5 p6)
          (EraseRecursive w (SwapIntoMin (node q1 q2 q3 q4 q5 q6) w c)) := by
  simp [EraseIfFound]

/-!
The swap with the minimum of the right subtree, at list level: the in-order
list of the subtree starts with its minimum pair, and SwapIntoMin replaces
exactly that head pair.
-/

theorem FindMinVC_SwapIntoMin (t : Node) (ht : t ≠ nil) (v : Int) (c : Nat) :
    ∃ rest, toVC t = FindMinVC t :: rest
      ∧ toVC (SwapIntoMin t v c) = (v, c) :: rest := by
  induction t with
  | nil => exact absurd rfl ht
  | node w c0 h s l r ihl ihr =>
      cases l with
      | nil =>
          exact ⟨toVC r, by simp [toVC, FindMinVC], by simp [toVC, SwapIntoMin]⟩
      | node p1 p2 p3 p4 p5 p6 =>
          obtain ⟨rest0, h1, h2⟩ := ihl (by simp)
          refine ⟨rest0 ++ (w, c0) :: toVC r, ?_, ?_⟩
          · show toVC (node p1 p2 p3 p4 p5 p6) ++ (w, c0) :: toVC r = _
            rw [h1]
            simp [FindMinVC]
          · show toVC (node w c0 h s
              (SwapIntoMin (node p1 p2 p3 p4 p5 p6) v c) r) = _
            rw [show toVC (node w c0 h s
                (SwapIntoMin (node p1 p2 p3 p4 p5 p6) v c) r)
              = toVC (SwapIntoMin (node p1 p2 p3 p4 p5 p6) v c)
                  ++ (w, c0) :: toVC r from rfl]
            rw [h2]
            simp

/-!
List-level behaviour of erasure.
-/

theorem delVC_sublist (v : Int) (L : List (Int × Nat)) :
    List.Sublist (delVC v L) L := by
  induction L with
  | nil => exact List.Sublist.refl _
  | cons p L ih =>
      obtain ⟨u, cu⟩ := p
      by_cases h1 : u = v
      · simp only [delVC, if_pos h1]
        exact List.Sublist.cons _ (List.Sublist.refl _)
      · simp only [delVC, if_neg h1]
        exact List.Sublist.cons₂ _ ih

theorem delVC_not_mem (v : Int) (L : List (Int × Nat))
    (h : v ∉ L.map Prod.fst) : delVC v L = L := by
  induction L with
  | nil => rfl
  | cons p L ih =>
      obtain ⟨u, cu⟩ := p
      simp only [List.map_cons, List.mem_cons] at h
      push_neg at h
      obtain ⟨ha, hb⟩ := h
      simp only [delVC, if_neg (Ne.symm ha)]
      rw [ih hb]

theorem delVC_append_not_mem (v : Int) (L1 L2 : List (Int × Nat))
    (h : v ∉ L1.map Prod.fst) :
    delVC v (L1 ++ L2) = L1 ++ delVC v L2 := by
  induction L1 with
  | nil => rfl
  | cons p L1 ih =>
      obtain ⟨u, cu⟩ := p
      simp only [List.map_cons, List.mem_cons] at h
      push_neg at h
      obtain ⟨ha, hb⟩ := h
      simp only [List.cons_append, delVC, if_neg (Ne.symm ha), List.append_eq]
      rw [ih hb]

theorem delVC_append_mem (v : Int) (L1 L2 : List (Int × Nat))
    (h : v ∈ L1.map Prod.fst) :
    delVC v (L1 ++ L2) = delVC v L1 ++ L2 := by
  induction L1 with
  | nil => simp at h
  | cons p L1 ih =>
      obtain ⟨u, cu⟩ := p
      by_cases h1 : u = v
      · simp [delVC, h1]
      · have h2 : v ∈ L1.map Prod.fst := by
          simp only [List.map_cons, List.mem_cons] at h
          rcases h with h | h
          · exact absurd h.symm h1
          · exact h
        simp only [List.cons_append, delVC, if_neg h1, List.append_eq]
        rw [ih h2]

theorem not_mem_fst_delVC (v : Int) (L : List (Int × Nat))
    (h : (L.map Prod.fst).Pairwise (· < ·)) :
    v ∉ (delVC v L).map Prod.fst := by
  induction L with
  | nil => simp [delVC]
  | cons p L ih =>
      obtain ⟨u, cu⟩ := p
      simp only [List.map_cons, List.pairwise_cons] at h
      obtain ⟨hu, hL⟩ := h
      by_cases h1 : u = v
      · subst h1
        simp only [delVC, if_pos rfl]
        intro hmem
        obtain ⟨q, hq, hq2⟩ := List.mem_map.mp hmem
        have := hu q.1 (List.mem_map_of_mem Prod.fst hq)
        omega
      · simp only [delVC, if_neg h1, List.map_cons, List.mem_cons]
        push_neg
        exact ⟨fun he => h1 he.symm, ih hL⟩

end AvlSpec

namespace AvlSpec

open Node

/-!
Characterization of EraseRecursive: on a BST it realizes delVC on the
in-order list.  The proof is by strong induction on the node count because
the two-child case recurses into the swapped right subtree, which is not a
structural subterm.
-/

theorem EraseRecursive_spec_aux :
    ∀ (n : Nat) (t : Node), numNodes t ≤ n → ∀ v : Int, bstB t = true →
      toVC (EraseRecursive v t) = delVC v (toVC t) := by
  intro n
  induction n with
  | zero =>
      intro t hle v hb
      cases t with
      | nil => simp [EraseRecursive_nil, toVC, delVC]
      | node w c h s l r => simp [numNodes] at hle
  | succ n ih =>
      intro t hle v hb
      cases t with
      | nil => simp [EraseRecursive_nil, toVC, delVC]
      | node w c h s l r =>
          rw [bstB_node_iff] at hb
          obtain ⟨hbl, hbr, hlv, hvr⟩ := hb
          have hlv2 : ∀ y ∈ (toVC l).map Prod.fst, y < w := by
            rw [← toList_eq_map_fst]
            exact hlv
          have hvr2 : ∀ y ∈ (toVC r).map Prod.fst, w < y := by
            rw [← toList_eq_map_fst]
            exact hvr
          have hnl : numNodes l ≤ n := by simp [numNodes] at hle; omega
          have hnr : numNodes r ≤ n := by simp [numNodes] at hle; omega
          by_cases h1 : w = v
          · subst h1
            rw [EraseRecursive_node, if_pos rfl]
            cases l with
            | nil =>
                rw [EraseIfFound_nilLeft]
                simp [toVC, delVC]
            | node p1 p2 p3 p4 p5 p6 =>
                have hnotl : w ∉ (toVC (node p1 p2 p3 p4 p5 p6)).map Prod.fst := by
                  intro hm
                  have := hlv2 w hm
                  omega
                cases r with
                | nil =>
                    rw [EraseIfFound_nilRight]
                    rw [show toVC (node w c h s (node p1 p2 p3 p4 p5 p6) nil)
                      = toVC (node p1 p2 p3 p4 p5 p6) ++ (w, c) :: toVC nil from rfl]
                    rw [delVC_append_not_mem _ _ _ hnotl]
                    simp [toVC, delVC]
                | node q1 q2 q3 q4 q5 q6 =>
                    rw [EraseIfFound_two]
                    set P := node p1 p2 p3 p4 p5 p6 with hP
                    set Q := node q1 q2 q3 q4 q5 q6 with hQ
                    obtain ⟨rest, hR1, hR2⟩ :=
                      FindMinVC_SwapIntoMin Q (by rw [hQ]; simp) w c
                    have hpr : ((toVC Q).map Prod.fst).Pairwise (· < ·) := by
                      rw [← toList_eq_map_fst, ← bstB_iff_pairwise]
                      exact hbr
                    have hswb : bstB (SwapIntoMin Q w c) = true := by
                      rw [bstB_iff_pairwise, toList_eq_map_fst, hR2]
                      simp only [List.map_cons]
                      rw [List.pairwise_cons]
                      constructor
                      · intro y hy
                        apply hvr2
                        rw [hR1]
                        simp only [List.map_cons, List.mem_cons]
                        exact Or.inr hy
                      · have hpr2 := hpr
                        rw [hR1] at hpr2
                        simp only [List.map_cons] at hpr2
                        exact (List.pairwise_cons.mp hpr2).2
                    have hnsw : numNodes (SwapIntoMin Q w c) ≤ n := by
                      rw [numNodes_SwapIntoMin]
                      exact hnr
                    have hrec := ih _ hnsw w hswb
                    rw [hR2] at hrec
                    have hrec2 : toVC (EraseRecursive w (SwapIntoMin Q w c))
                        = rest := by
                      rw [hrec]
                      simp [delVC]
                    rw [show toVC (node (FindMinVC Q).1 (FindMinVC Q).2 h s P
                          (EraseRecursive w (SwapIntoMin Q w c)))
                        = toVC P ++ ((FindMinVC Q).1, (FindMinVC Q).2)
                            :: toVC (EraseRecursive w (SwapIntoMin Q w c))
                        from rfl]
                    rw [show toVC (node w c h s P Q)
                        = toVC P ++ (w, c) :: toVC Q from rfl]
                    rw [hrec2, Prod.mk.eta, delVC_append_not_mem _ _ _ hnotl,
                      hR1]
                    simp [delVC]
          · by_cases h2 : w > v
            · rw [EraseRecursive_node, if_neg h1, if_pos h2]
              have hrecl := ih l hnl v hbl
              rw [show toVC (node w c h s (EraseRecursive v l) r)
                  = toVC (EraseRecursive v l) ++ (w, c) :: toVC r from rfl]
              rw [show toVC (node w c h s l r)
                  = toVC l ++ (w, c) :: toVC r from rfl]
              rw [hrecl]
              by_cases hm : v ∈ (toVC l).map Prod.fst
              · rw [delVC_append_mem _ _ _ hm]
              · have hnr2 : v ∉ (toVC r).map Prod.fst := by
                  intro hmm
                  have := hvr2 v hmm
                  omega
                rw [delVC_append_not_mem _ _ _ hm, delVC_not_mem _ _ hm]
                rw [show delVC v ((w, c) :: toVC r)
                    = (w, c) :: delVC v (toVC r) by simp [delVC, h1]]
                rw [delVC_not_mem _ _ hnr2]
            · have hwv : w < v := by omega
              rw [EraseRecursive_node, if_neg h1, if_neg h2]
              have hrecr := ih r hnr v hbr
              rw [show toVC (node w c h s l (EraseRecursive v r))
                  = toVC l ++ (w, c) :: toVC (EraseRecursive v r) from rfl]
              rw [show toVC (node w c h s l r)
                  = toVC l ++ (w, c) :: toVC r from rfl]
              rw [hrecr]
              have hnl2 : v ∉ (toVC l).map Prod.fst := by
                intro hmm
                have := hlv2 v hmm
                omega
              rw [delVC_append_not_mem _ _ _ hnl2]
              rw [show delVC v ((w, c) :: toVC r)
                  = (w, c) :: delVC v (toVC r) by simp [delVC, h1]]

theorem toVC_EraseRecursive (v : Int) (t : Node) (hb : bstB t = true) :
    toVC (EraseRecursive v t) = delVC v (toVC t) :=
  EraseRecursive_spec_aux (numNodes t) t le_rfl v hb

theorem bstB_EraseRecursive (v : Int) (t : Node) (hb : bstB t = true) :
    bstB (EraseRecursive v t) = true := by
  rw [bstB_iff_pairwise, toList_eq_map_fst, toVC_EraseRecursive v t hb]
  have hp : ((toVC t).map Prod.fst).Pairwise (· < ·) := by
    rw [← toList_eq_map_fst, ← bstB_iff_pairwise]
    exact hb
  exact hp.sublist ((delVC_sublist v (toVC t)).map Prod.fst)

theorem not_mem_toList_EraseRecursive (v : Int) (t : Node)
    (hb : bstB t = true) : v ∉ toList (EraseRecursive v t) := by
  rw [toList_eq_map_fst, toVC_EraseRecursive v t hb]
  apply not_mem_fst_delVC
  rw [← toList_eq_map_fst, ← bstB_iff_pairwise]
  exact hb

end AvlSpec

namespace AvlSpec

open Node

theorem Insert_root (m : Bool) (bal : Node → Node) (v : Int) (st : TreeState) :
    (Insert m bal v st).root = (InsertRecursive m bal v st.root).1 := rfl

theorem Insert_size (m : Bool) (bal : Node → Node) (v : Int) (st : TreeState) :
    (Insert m bal v st).size = st.size + (InsertRecursive m bal v st.root).2 :=
  rfl

theorem Erase_eq_some (v : Int) (st st1 : TreeState)
    (h : Erase v st = some st1) :
    st1.root = EraseRecursive v st.root ∧ st1.size = st.size := by
  unfold Erase at h
  cases hE : EraseRecursive v st.root with
  | nil => rw [hE] at h; cases h
  | node w c hh ss l r =>
      rw [hE] at h
      cases h
      exact ⟨rfl, rfl⟩

theorem RunOps_preserve (m : Bool) (bal : Node → Node) (P : TreeState → Prop)
    (hins : ∀ v st, P st → P (Insert m bal v st))
    (hdel : ∀ v st st1, P st → Erase v st = some st1 → P st1) :
    ∀ (ops : List Op) (st st1 : TreeState), P st →
      RunOps m bal ops st = some st1 → P st1 := by
  intro ops
  induction ops with
  | nil =>
      intro st st1 hP hrun
      simp [RunOps] at hrun
      rw [← hrun]
      exact hP
  | cons op ops ih =>
      intro st st1 hP hrun
      cases op with
      | ins v =>
          rw [RunOps] at hrun
          exact ih _ _ (hins v st hP) hrun
      | del v =>
          rw [RunOps] at hrun
          cases hE : Erase v st with
          | none => rw [hE] at hrun; cases hrun
          | some st2 =>
              rw [hE] at hrun
              exact ih _ _ (hdel v st st2 hP hE) hrun

/-!
Count-field facts at list level, used for the multiset claims.
-/

theorem snd_insVC_set (v : Int) (L : List (Int × Nat)) :
    ∀ y ∈ (insVC false v L).map Prod.snd, y = 1 ∨ y ∈ L.map Prod.snd := by
  induction L with
  | nil => simp [insVC]
  | cons p L ih =>
      obtain ⟨u, cu⟩ := p
      by_cases h1 : u = v
      · subst h1
        simp [insVC, InsertIfFound]
        tauto
      · by_cases h2 : u > v
        · simp [insVC, h1, h2]
        · simp only [insVC, if_neg h1, if_neg h2, List.map_cons,
            List.mem_cons]
          intro y hy
          rcases hy with rfl | hy2
          · tauto
          · rcases ih y hy2 with h | h
            · tauto
            · tauto

theorem snd_insVC_pos (m : Bool) (v : Int) (L : List (Int × Nat))
    (h : ∀ y ∈ L.map Prod.snd, 1 ≤ y) :
    ∀ y ∈ (insVC m v L).map Prod.snd, 1 ≤ y := by
  induction L with
  | nil =>
      simp [insVC]
  | cons p L ih =>
      obtain ⟨u, cu⟩ := p
      have hcu : 1 ≤ cu := h cu (by simp)
      have htl : ∀ y ∈ L.map Prod.snd, 1 ≤ y :=
        fun y hy => h y (by simp [hy])
      by_cases h1 : u = v
      · subst h1
        have hins : insVC m u ((u, cu) :: L) = (u, InsertIfFound m cu) :: L := by
          simp [insVC]
        rw [hins]
        simp only [List.map_cons, List.mem_cons]
        intro y hy
        rcases hy with rfl | hy2
        · rcases m with _ | _
          · rw [show InsertIfFound false cu = cu from rfl]
            exact hcu
          · rw [show InsertIfFound true cu = cu + 1 from rfl]
            omega
        · exact htl y hy2
      · by_cases h2 : u > v
        · simp only [insVC, if_neg h1, if_pos h2, List.map_cons,
            List.mem_cons]
          intro y hy
          rcases hy with rfl | hy2
          · omega
          · rcases hy2 with rfl | hy3
            · exact hcu
            · exact htl y hy3
        · simp only [insVC, if_neg h1, if_neg h2, List.map_cons,
            List.mem_cons]
          intro y hy
          rcases hy with rfl | hy2
          · exact hcu
          · exact ih htl y hy2

end AvlSpec

namespace AvlSpec

open Node

/-!
Invariant preservation along operation sequences: BST order always, with the
count-field invariants carried jointly (the insert characterization needs
the BST hypothesis).
-/

theorem bstB_Insert (m : Bool) (bal : Node → Node)
    (hbal : ∀ u, toVC (bal u) = toVC u) (v : Int) (st : TreeState)
    (hb : bstB st.root = true) : bstB (Insert m bal v st).root = true := by
  rw [Insert_root]
  exact bstB_InsertRecursive m bal hbal v st.root hb

theorem bstB_Erase (v : Int) (st st1 : TreeState)
    (hb : bstB st.root = true) (h : Erase v st = some st1) :
    bstB st1.root = true := by
  rw [(Erase_eq_some v st st1 h).1]
  exact bstB_EraseRecursive v st.root hb

theorem bstB_RunOps (m : Bool) (bal : Node → Node)
    (hbal : ∀ u, toVC (bal u) = toVC u) (ops : List Op) (st : TreeState)
    (h : RunOps m bal ops emptyTree = some st) : bstB st.root = true := by
  exact RunOps_preserve m bal (fun st => bstB st.root = true)
    (fun v st hP => bstB_Insert m bal hbal v st hP)
    (fun v st st1 hP hE => bstB_Erase v st st1 hP hE)
    ops emptyTree st rfl h

theorem allCntOneB_RunOps (bal : Node → Node)
    (hbal : ∀ u, toVC (bal u) = toVC u) (ops : List Op) (st : TreeState)
    (h : RunOps false bal ops emptyTree = some st) :
    allCntOneB st.root = true := by
  have hmain := RunOps_preserve false bal
    (fun st => bstB st.root = true ∧ allCntOneB st.root = true)
    ?hins ?hdel ops emptyTree st ⟨rfl, rfl⟩ h
  · exact hmain.2
  case hins =>
    intro v st hP
    refine ⟨bstB_Insert false bal hbal v st hP.1, ?_⟩
    unfold allCntOneB at hP ⊢
    rw [Insert_root,
      (InsertRecursive_spec false bal hbal v st.root hP.1).1]
    rw [List.all_eq_true] at hP ⊢
    intro y hy
    rcases snd_insVC_set v (toVC st.root) y hy with rfl | hy2
    · simp
    · exact hP.2 y hy2
  case hdel =>
    intro v st st1 hP hE
    refine ⟨bstB_Erase v st st1 hP.1 hE, ?_⟩
    unfold allCntOneB at hP ⊢
    rw [(Erase_eq_some v st st1 hE).1, toVC_EraseRecursive v st.root hP.1]
    rw [List.all_eq_true] at hP ⊢
    intro y hy
    exact hP.2 y (((delVC_sublist v (toVC st.root)).map Prod.snd).mem hy)

theorem allCntPosB_RunOps (m : Bool) (bal : Node → Node)
    (hbal : ∀ u, toVC (bal u) = toVC u) (ops : List Op) (st : TreeState)
    (h : RunOps m bal ops emptyTree = some st) :
    allCntPosB st.root = true := by
  have hmain := RunOps_preserve m bal
    (fun st => bstB st.root = true ∧ allCntPosB st.root = true)
    ?hins ?hdel ops emptyTree st ⟨rfl, rfl⟩ h
  · exact hmain.2
  case hins =>
    intro v st hP
    refine ⟨bstB_Insert m bal hbal v st hP.1, ?_⟩
    unfold allCntPosB at hP ⊢
    rw [Insert_root,
      (InsertRecursive_spec m bal hbal v st.root hP.1).1]
    rw [List.all_eq_true] at hP ⊢
    intro y hy
    have := snd_insVC_pos m v (toVC st.root)
      (fun y hy => by simpa using hP.2 y hy) y hy
    simpa using this
  case hdel =>
    intro v st st1 hP hE
    refine ⟨bstB_Erase v st st1 hP.1 hE, ?_⟩
    unfold allCntPosB at hP ⊢
    rw [(Erase_eq_some v st st1 hE).1, toVC_EraseRecursive v st.root hP.1]
    rw [List.all_eq_true] at hP ⊢
    intro y hy
    exact hP.2 y (((delVC_sublist v (toVC st.root)).map Prod.snd).mem hy)

end AvlSpec

namespace AvlSpec

open Node

/-!
Boundary search: the candidate-tracking descents of Next and Prev compute,
on a BST, the least element above respectively the greatest element below
the query.
-/

theorem omin_comm (a b : Option Int) : omin a b = omin b a := by
  cases a <;> cases b <;> simp [omin, min_comm]

theorem omin_assoc (a b c : Option Int) :
    omin (omin a b) c = omin a (omin b c) := by
  cases a <;> cases b <;> cases c <;> simp [omin, min_assoc]

theorem omax_comm (a b : Option Int) : omax a b = omax b a := by
  cases a <;> cases b <;> simp [omax, max_comm]

theorem omax_assoc (a b c : Option Int) :
    omax (omax a b) c = omax a (omax b c) := by
  cases a <;> cases b <;> cases c <;> simp [omax, max_assoc]

theorem minGt_append (x : Int) (L1 L2 : List Int) :
    minGt x (L1 ++ L2) = omin (minGt x L1) (minGt x L2) := by
  induction L1 with
  | nil => rfl
  | cons y ys ih =>
      by_cases hx : x < y
      · simp only [List.cons_append, minGt, if_pos hx, List.append_eq, ih,
          omin_assoc]
      · simp only [List.cons_append, minGt, if_neg hx, List.append_eq, ih]

theorem maxLt_append (x : Int) (L1 L2 : List Int) :
    maxLt x (L1 ++ L2) = omax (maxLt x L1) (maxLt x L2) := by
  induction L1 with
  | nil => rfl
  | cons y ys ih =>
      by_cases hx : y < x
      · simp only [List.cons_append, maxLt, if_pos hx, List.append_eq, ih,
          omax_assoc]
      · simp only [List.cons_append, maxLt, if_neg hx, List.append_eq, ih]

theorem minGt_eq_none (x : Int) (L : List Int) :
    minGt x L = none ↔ ∀ z ∈ L, ¬ x < z := by
  induction L with
  | nil => simp [minGt]
  | cons y ys ih =>
      by_cases hx : x < y
      · simp only [minGt, if_pos hx]
        constructor
        · intro h
          cases hm : minGt x ys <;> rw [hm] at h <;> simp [omin] at h
        · intro h
          exact absurd hx (h y (List.mem_cons_self _ _))
      · simp only [minGt, if_neg hx, ih]
        constructor
        · intro h z hz
          rcases List.mem_cons.mp hz with rfl | hz2
          · exact hx
          · exact h z hz2
        · intro h z hz
          exact h z (List.mem_cons_of_mem _ hz)

theorem maxLt_eq_none (x : Int) (L : List Int) :
    maxLt x L = none ↔ ∀ z ∈ L, ¬ z < x := by
  induction L with
  | nil => simp [maxLt]
  | cons y ys ih =>
      by_cases hx : y < x
      · simp only [maxLt, if_pos hx]
        constructor
        · intro h
          cases hm : maxLt x ys <;> rw [hm] at h <;> simp [omax] at h
        · intro h
          exact absurd hx (h y (List.mem_cons_self _ _))
      · simp only [maxLt, if_neg hx, ih]
        constructor
        · intro h z hz
          rcases List.mem_cons.mp hz with rfl | hz2
          · exact hx
          · exact h z hz2
        · intro h z hz
          exact h z (List.mem_cons_of_mem _ hz)

theorem minGt_mem (x : Int) (L : List Int) (y : Int)
    (h : minGt x L = some y) : y ∈ L ∧ x < y := by
  induction L with
  | nil => exact absurd h (by simp [minGt])
  | cons z zs ih =>
      by_cases hx : x < z
      · rw [minGt, if_pos hx] at h
        cases hm : minGt x zs with
        | none =>
            rw [hm] at h
            simp only [omin] at h
            cases h
            exact ⟨List.mem_cons_self _ _, hx⟩
        | some a =>
            rw [hm] at h
            simp only [omin, Option.some.injEq] at h
            rcases min_choice z a with hmin | hmin
            · rw [hmin] at h
              subst h
              exact ⟨List.mem_cons_self _ _, hx⟩
            · rw [hmin] at h
              subst h
              obtain ⟨hmem, hlt⟩ := ih hm
              exact ⟨List.mem_cons_of_mem _ hmem, hlt⟩
      · rw [minGt, if_neg hx] at h
        obtain ⟨hmem, hlt⟩ := ih h
        exact ⟨List.mem_cons_of_mem _ hmem, hlt⟩

theorem maxLt_mem (x : Int) (L : List Int) (y : Int)
    (h : maxLt x L = some y) : y ∈ L ∧ y < x := by
  induction L with
  | nil => exact absurd h (by simp [maxLt])
  | cons z zs ih =>
      by_cases hx : z < x
      · rw [maxLt, if_pos hx] at h
        cases hm : maxLt x zs with
        | none =>
            rw [hm] at h
            simp only [omax] at h
            cases h
            exact ⟨List.mem_cons_self _ _, hx⟩
        | some a =>
            rw [hm] at h
            simp only [omax, Option.some.injEq] at h
            rcases max_choice z a with hmax | hmax
            · rw [hmax] at h
              subst h
              exact ⟨List.mem_cons_self _ _, hx⟩
            · rw [hmax] at h
              subst h
              obtain ⟨hmem, hlt⟩ := ih hm
              exact ⟨List.mem_cons_of_mem _ hmem, hlt⟩
      · rw [maxLt, if_neg hx] at h
        obtain ⟨hmem, hlt⟩ := ih h
        exact ⟨List.mem_cons_of_mem _ hmem, hlt⟩

theorem minGt_le (x : Int) (L : List Int) :
    ∀ y, minGt x L = some y → ∀ z ∈ L, x < z → y ≤ z := by
  induction L with
  | nil => simp
  | cons z zs ih =>
      intro y h w hw hxw
      by_cases hx : x < z
      · rw [minGt, if_pos hx] at h
        cases hm : minGt x zs with
        | none =>
            rw [hm] at h
            simp only [omin] at h
            cases h
            rcases List.mem_cons.mp hw with rfl | hw2
            · exact le_refl _
            · exact absurd hxw ((minGt_eq_none x zs).mp hm w hw2)
        | some a =>
            rw [hm] at h
            simp only [omin, Option.some.injEq] at h
            subst h
            rcases List.mem_cons.mp hw with rfl | hw2
            · exact min_le_left _ _
            · exact le_trans (min_le_right _ _) (ih a hm w hw2 hxw)
      · rw [minGt, if_neg hx] at h
        rcases List.mem_cons.mp hw with rfl | hw2
        · exact absurd hxw hx
        · exact ih y h w hw2 hxw

theorem maxLt_ge (x : Int) (L : List Int) :
    ∀ y, maxLt x L = some y → ∀ z ∈ L, z < x → z ≤ y := by
  induction L with
  | nil => simp
  | cons z zs ih =>
      intro y h w hw hxw
      by_cases hx : z < x
      · rw [maxLt, if_pos hx] at h
        cases hm : maxLt x zs with
        | none =>
            rw [hm] at h
            simp only [omax] at h
            cases h
            rcases List.mem_cons.mp hw with rfl | hw2
            · exact le_refl _
            · exact absurd hxw ((maxLt_eq_none x zs).mp hm w hw2)
        | some a =>
            rw [hm] at h
            simp only [omax, Option.some.injEq] at h
            subst h
            rcases List.mem_cons.mp hw with rfl | hw2
            · exact le_max_left _ _
            · exact le_trans (ih a hm w hw2 hxw) (le_max_right _ _)
      · rw [maxLt, if_neg hx] at h
        rcases List.mem_cons.mp hw with rfl | hw2
        · exact absurd hxw hx
        · exact ih y h w hw2 hxw

end AvlSpec

namespace AvlSpec

open Node

theorem NextDescend_eq (x : Int) :
    ∀ (t : Node), bstB t = true → ∀ (acc : Option Int),
      NextDescend x t acc = omin acc (minGt x (toList t)) := by
  intro t
  induction t with
  | nil =>
      intro _ acc
      cases acc <;> rfl
  | node v c h s l r ihl ihr =>
      intro hb acc
      rw [bstB_node_iff] at hb
      obtain ⟨hbl, hbr, hlv, hvr⟩ := hb
      rw [toList_node, minGt_append]
      by_cases hx : v > x
      · rw [show NextDescend x (node v c h s l r) acc
            = NextDescend x l
                (match acc with
                 | none => some v
                 | some a => if v < a then some v else some a) by
          simp [NextDescend, hx]]
        rw [ihl hbl]
        have hacc : (match acc with
            | none => some v
            | some a => if v < a then some v else some a)
            = omin acc (some v) := by
          cases acc with
          | none => rfl
          | some a =>
              simp only [omin, Option.some.injEq]
              rcases le_or_lt a v with hle | hlt
              · rw [if_neg (not_lt.mpr hle), min_eq_left hle]
              · rw [if_pos hlt, min_eq_right hlt.le]
        have hr : omin (some v) (minGt x (toList r)) = some v := by
          cases hm : minGt x (toList r) with
          | none => rfl
          | some a =>
              have hmem := (minGt_mem x (toList r) a hm).1
              have hva : v < a := hvr a hmem
              simp [omin, min_eq_left hva.le]
        rw [show minGt x (v :: toList r)
            = omin (some v) (minGt x (toList r)) by simp [minGt, hx]]
        rw [hr, hacc, omin_assoc, omin_comm (some v) (minGt x (toList l))]
      · rw [show NextDescend x (node v c h s l r) acc
            = NextDescend x r acc by simp [NextDescend, hx]]
        rw [ihr hbr]
        have hl0 : minGt x (toList l) = none :=
          (minGt_eq_none x (toList l)).mpr
            (fun z hz => by have := hlv z hz; omega)
        rw [hl0]
        rw [show minGt x (v :: toList r) = minGt x (toList r) by
          simp [minGt, hx]]
        rfl

theorem PrevDescend_eq (x : Int) :
    ∀ (t : Node), bstB t = true → ∀ (acc : Option Int),
      PrevDescend x t acc = omax acc (maxLt x (toList t)) := by
  intro t
  induction t with
  | nil =>
      intro _ acc
      cases acc <;> rfl
  | node v c h s l r ihl ihr =>
      intro hb acc
      rw [bstB_node_iff] at hb
      obtain ⟨hbl, hbr, hlv, hvr⟩ := hb
      rw [toList_node, maxLt_append]
      by_cases hx : v < x
      · rw [show PrevDescend x (node v c h s l r) acc
            = PrevDescend x r
                (match acc with
                 | none => some v
                 | some a => if v > a then some v else some a) by
          simp [PrevDescend, hx]]
        rw [ihr hbr]
        have hacc : (match acc with
            | none => some v
            | some a => if v > a then some v else some a)
            = omax acc (some v) := by
          cases acc with
          | none => rfl
          | some a =>
              simp only [omax, Option.some.injEq]
              rcases le_or_lt v a with hle | hlt
              · rw [if_neg (not_lt.mpr hle), max_eq_left hle]
              · rw [if_pos hlt, max_eq_right hlt.le]
        have hl1 : omax (maxLt x (toList l)) (some v) = some v := by
          cases hm : maxLt x (toList l) with
          | none => rfl
          | some a =>
              have hmem := (maxLt_mem x (toList l) a hm).1
              have hva : a < v := hlv a hmem
              simp [omax, max_eq_right hva.le]
        rw [show maxLt x (v :: toList r)
            = omax (some v) (maxLt x (toList r)) by simp [maxLt, hx]]
        rw [hacc, ← omax_assoc (maxLt x (toList l)) (some v)
          (maxLt x (toList r)), hl1, ← omax_assoc]
      · rw [show PrevDescend x (node v c h s l r) acc
            = PrevDescend x l acc by simp [PrevDescend, hx]]
        rw [ihl hbl]
        have hr0 : maxLt x (toList r) = none :=
          (maxLt_eq_none x (toList r)).mpr
            (fun z hz => by have := hvr z hz; omega)
        rw [show maxLt x (v :: toList r) = maxLt x (toList r) by
          simp [maxLt, hx]]
        rw [hr0]
        cases maxLt x (toList l) <;> cases acc <;> rfl

theorem Next_eq_minGt (x : Int) (st : TreeState) (hb : bstB st.root = true) :
    Next x st = minGt x (toList st.root) := by
  rw [Next, NextDescend_eq x st.root hb none]
  rfl

theorem Prev_eq_maxLt (x : Int) (st : TreeState) (hb : bstB st.root = true) :
    Prev x st = maxLt x (toList st.root) := by
  rw [Prev, PrevDescend_eq x st.root hb none]
  rfl

end AvlSpec

namespace AvlSpec

open Node

/-!
On a node whose stored height is accurate and whose height difference lies
in [-1, 1], the AVL Balance hook is the identity; hence a set-mode insert of
an already present value leaves a valid AVL tree entirely unchanged.
-/

theorem heightsOkB_node_iff (v : Int) (c h s : Nat) (l r : Node) :
    heightsOkB (node v c h s l r) = true ↔
      h = max (NodeHeight l) (NodeHeight r) + 1 ∧ heightsOkB l = true
        ∧ heightsOkB r = true := by
  simp [heightsOkB, and_assoc]

theorem balancedB_node_iff (v : Int) (c h s : Nat) (l r : Node) :
    balancedB (node v c h s l r) = true ↔
      ((NodeHeight l : Int) - (NodeHeight r : Int)).natAbs ≤ 1
        ∧ balancedB l = true ∧ balancedB r = true := by
  simp [balancedB, and_assoc]

theorem BalanceAvl_id (v : Int) (c h s : Nat) (l r : Node)
    (hh : h = max (NodeHeight l) (NodeHeight r) + 1)
    (hd : ((NodeHeight l : Int) - (NodeHeight r : Int)).natAbs ≤ 1) :
    BalanceAvl (node v c h s l r) = node v c h s l r := by
  unfold BalanceAvl
  simp only [BalanceNode]
  rw [show RenewNodesHeightAvl (node v c h s l r) = node v c h s l r by
    simp only [RenewNodesHeightAvl]
    rw [show max (NodeHeight r) (NodeHeight l) + 1 = h by omega]]
  have hd1 : ¬ (HeightDiff (node v c h s l r) < -1) := by
    simp only [HeightDiff]
    omega
  have hd2 : ¬ (HeightDiff (node v c h s l r) > 1) := by
    simp only [HeightDiff]
    omega
  rw [if_neg hd1, if_neg hd2]

theorem InsertRecursive_found_id (v : Int) :
    ∀ t, bstB t = true → heightsOkB t = true → balancedB t = true →
      v ∈ toList t → InsertRecursive false BalanceAvl v t = (t, 0) := by
  intro t
  induction t with
  | nil =>
      intro _ _ _ hv
      simp [toList, toVC] at hv
  | node w c h s l r ihl ihr =>
      intro hb hh hba hv
      rw [bstB_node_iff] at hb
      obtain ⟨hbl, hbr, hlv, hvr⟩ := hb
      rw [heightsOkB_node_iff] at hh
      obtain ⟨hh0, hhl, hhr⟩ := hh
      rw [balancedB_node_iff] at hba
      obtain ⟨hba0, hbal, hbar⟩ := hba
      by_cases h1 : w = v
      · rw [show InsertRecursive false BalanceAvl v (node w c h s l r)
            = (BalanceAvl (node w (InsertIfFound false c) h s l r), 0) by
          simp [InsertRecursive, h1]]
        rw [show InsertIfFound false c = c from rfl]
        rw [BalanceAvl_id w c h s l r hh0 hba0]
      · by_cases h2 : w > v
        · have hvl : v ∈ toList l := by
            rw [toList_node] at hv
            rcases List.mem_append.mp hv with hml | hmr
            · exact hml
            · rcases List.mem_cons.mp hmr with rfl | hmr2
              · exact absurd h2 (lt_irrefl v)
              · exact absurd (hvr v hmr2) (by omega)
          rw [show InsertRecursive false BalanceAvl v (node w c h s l r)
              = (BalanceAvl (node w c h s
                  (InsertRecursive false BalanceAvl v l).1 r),
                  (InsertRecursive false BalanceAvl v l).2) by
            simp [InsertRecursive, h1, h2]]
          rw [ihl hbl hhl hbal hvl]
          rw [show ((l, 0) : Node × Nat).1 = l from rfl,
            show ((l, 0) : Node × Nat).2 = 0 from rfl]
          rw [BalanceAvl_id w c h s l r hh0 hba0]
        · have hwv : w < v := by omega
          have hvr2 : v ∈ toList r := by
            rw [toList_node] at hv
            rcases List.mem_append.mp hv with hml | hmr
            · exact absurd (hlv v hml) (by omega)
            · rcases List.mem_cons.mp hmr with rfl | hmr2
              · exact absurd hwv (lt_irrefl v)
              · exact hmr2
          rw [show InsertRecursive false BalanceAvl v (node w c h s l r)
              = (BalanceAvl (node w c h s l
                  (InsertRecursive false BalanceAvl v r).1),
                  (InsertRecursive false BalanceAvl v r).2) by
            simp [InsertRecursive, h1, h2]]
          rw [ihr hbr hhr hbar hvr2]
          rw [show ((r, 0) : Node × Nat).1 = r from rfl,
            show ((r, 0) : Node × Nat).2 = 0 from rfl]
          rw [BalanceAvl_id w c h s l r hh0 hba0]

end AvlSpec

namespace AvlSpec

open Node

theorem map_fst_insVC_mem (m : Bool) (v : Int) (L : List (Int × Nat))
    (h : (L.map Prod.fst).Pairwise (· < ·)) (hv : v ∈ L.map Prod.fst) :
    (insVC m v L).map Prod.fst = L.map Prod.fst := by
  induction L with
  | nil => simp at hv
  | cons p L ih =>
      obtain ⟨u, cu⟩ := p
      simp only [List.map_cons, List.pairwise_cons] at h
      obtain ⟨hu, hL⟩ := h
      by_cases h1 : u = v
      · subst h1
        have hins : insVC m u ((u, cu) :: L) = (u, InsertIfFound m cu) :: L := by
          simp [insVC]
        rw [hins]
        simp
      · have hv2 : v ∈ L.map Prod.fst := by
          rcases List.mem_cons.mp hv with rfl | h2
          · exact absurd rfl h1
          · exact h2
        have huv : u < v := hu v hv2
        simp only [insVC, if_neg h1, if_neg (show ¬ u > v by omega),
          List.map_cons]
        rw [ih hL hv2]

end AvlSpec

namespace AvlSpec

open Node

/-!
Claim theorems.
-/

/-- C1: the claim states that after every Insert or Erase the AVL balance
invariant and the stored height and size accuracy hold, the rebalancing hook
being applied at every ancestor on the way back up from an Erase.  The erase
path of the source never calls the Balance hook, and this theorem evaluates
the code at a failing input: inserting 1, 2, 3, 4, 5 and erasing 1 succeeds
and yields a state whose root has stored-and-accurate height difference -2,
so the balance invariant is violated right after an Erase. -/
theorem c1_erase_applies_no_rebalancing :
    RunOps false BalanceAvl
        [Op.ins 1, Op.ins 2, Op.ins 3, Op.ins 4, Op.ins 5, Op.del 1] emptyTree
      = some ⟨node 2 1 3 1 nil
          (node 4 1 2 1 (node 3 1 1 1 nil nil) (node 5 1 1 1 nil nil)), 5⟩
    ∧ balancedB (node 2 1 3 1 nil
        (node 4 1 2 1 (node 3 1 1 1 nil nil) (node 5 1 1 1 nil nil))) = false
    ∧ heightsOkB (node 2 1 3 1 nil
        (node 4 1 2 1 (node 3 1 1 1 nil nil) (node 5 1 1 1 nil nil))) = true
    ∧ HeightDiff (node 2 1 3 1 nil
        (node 4 1 2 1 (node 3 1 1 1 nil nil) (node 5 1 1 1 nil nil))) = -2 := by
  refine ⟨?_, by decide, by decide, by decide⟩
  simp [RunOps, Insert, InsertRecursive, CreateNode, emptyTree, Erase,
    EraseRecursive_node, EraseIfFound_nilLeft, BalanceAvl, BalanceNode,
    RenewNodesHeightAvl, NodeHeight, HeightDiff, LeftRotation, RightRotation,
    RotateLeft, RotateRight, InsertIfFound]

/-- C2: the claim states that inserting n distinct values and erasing them
all returns the tree to Empty() true and Size() 0.  Evaluating the code: for
n = 1 the final Erase dereferences the null root (modelled none); for n = 2
the run crashes at the last Erase as well, and the state right before it
still has size_ = 2 because the erase path never decrements size_. -/
theorem c2_roundtrip_fails :
    RunOps false BalanceAvl [Op.ins 1, Op.del 1] emptyTree = none
    ∧ RunOps false BalanceAvl [Op.ins 1, Op.ins 2, Op.del 1] emptyTree
        = some ⟨node 2 1 1 1 nil nil, 2⟩
    ∧ Size ⟨node 2 1 1 1 nil nil, 2⟩ = 2
    ∧ Empty ⟨node 2 1 1 1 nil nil, 2⟩ = false
    ∧ RunOps false BalanceAvl [Op.ins 1, Op.ins 2, Op.del 1, Op.del 2]
        emptyTree = none := by
  refine ⟨?_, ?_, by decide, by decide, ?_⟩ <;>
    simp [RunOps, Insert, InsertRecursive, CreateNode, emptyTree, Erase,
      EraseRecursive_node, EraseRecursive_nil, EraseIfFound_nilLeft,
      BalanceAvl, BalanceNode, RenewNodesHeightAvl, NodeHeight, HeightDiff,
      LeftRotation, RightRotation, RotateLeft, RotateRight, InsertIfFound]

/-- C3: the claim states that Erase of an absent value is a total no-op on
every tree including the empty one.  On the empty tree the Erase wrapper
executes root_->parent_ = ... on a null root_, a null-pointer dereference
(modelled none), so the operation is not total; on a non-empty tree the
claim holds, witnessed here at a concrete input. -/
theorem c3_erase_empty_null_deref :
    Erase 0 emptyTree = none
    ∧ Erase 5 (Insert false BalanceAvl 3 emptyTree)
        = some (Insert false BalanceAvl 3 emptyTree) := by
  constructor <;>
    simp [Erase, emptyTree, Insert, InsertRecursive, CreateNode,
      EraseRecursive_nil, EraseRecursive_node]

/-- C4 counterexample: in multiset mode, after inserting 7, 10, 7 the node
holding 7 has occurrence count 2, yet a single Erase of 7 removes the node
structurally (Exsist 7 becomes false), so a node is removed while its
logical occurrence count is 2, not 0. -/
theorem c4_counterexample_drop_all :
    RunOps true BalanceAvl [Op.ins 7, Op.ins 10, Op.ins 7] emptyTree
      = some ⟨node 7 2 2 1 nil (node 10 1 1 1 nil nil), 2⟩
    ∧ cntOf 7 (node 7 2 2 1 nil (node 10 1 1 1 nil nil)) = 2
    ∧ Erase 7 ⟨node 7 2 2 1 nil (node 10 1 1 1 nil nil), 2⟩
        = some ⟨node 10 1 1 1 nil nil, 2⟩
    ∧ Exsist 7 ⟨node 10 1 1 1 nil nil, 2⟩ = false := by
  refine ⟨by decide, by decide, ?_, by decide⟩
  simp [Erase, EraseRecursive_node, EraseIfFound_nilLeft]

/-- C4 amended: in multiset mode every stored occurrence count is at least 1
after every operation sequence (in both AVL variants), but Erase removes a
matched node structurally regardless of its count: after erasing v, the
value v is absent from the in-order list of any BST, whatever the stored
counts were. -/
theorem c4_count_amended (ops : List Op) (st : TreeState) (t : Node)
    (v : Int) :
    (RunOps true BalanceAvl ops emptyTree = some st →
      allCntPosB st.root = true)
    ∧ (RunOps true BalanceWithSize ops emptyTree = some st →
      allCntPosB st.root = true)
    ∧ (bstB t = true → v ∉ toList (EraseRecursive v t)) :=
  ⟨allCntPosB_RunOps true BalanceAvl toVC_BalanceAvl ops st,
   allCntPosB_RunOps true BalanceWithSize toVC_BalanceWithSize ops st,
   not_mem_toList_EraseRecursive v t⟩

theorem c4_count_amended_witness :
    allCntPosB (node 7 2 2 1 nil (node 10 1 1 1 nil nil)) = true
    ∧ (7 : Int) ∉ toList
        (EraseRecursive 7 (node 7 2 2 1 nil (node 10 1 1 1 nil nil))) :=
  ⟨(c4_count_amended [Op.ins 7, Op.ins 10, Op.ins 7]
      ⟨node 7 2 2 1 nil (node 10 1 1 1 nil nil), 2⟩
      (node 7 2 2 1 nil (node 10 1 1 1 nil nil)) 7).1 (by decide),
   (c4_count_amended [] emptyTree
      (node 7 2 2 1 nil (node 10 1 1 1 nil nil)) 7).2.2 (by decide)⟩

/-- C5: on every BST state (every state reachable by the operations is one),
Next x is none exactly when no present value exceeds x, and when it returns
a value that value is present, strictly above x, and least among present
values above x; symmetrically for Prev; moreover the concrete scenario of
the claim holds: on the empty tree Next 0 is invalid, and after inserting
only 5, Next 0 returns 5 and Prev 5 is invalid. -/
theorem c5_next_prev_spec (st : TreeState) (x : Int)
    (hb : bstB st.root = true) :
    (Next x st = none ↔ ∀ z ∈ toList st.root, ¬ x < z)
    ∧ (∀ y, Next x st = some y →
        y ∈ toList st.root ∧ x < y ∧ ∀ z ∈ toList st.root, x < z → y ≤ z)
    ∧ (Prev x st = none ↔ ∀ z ∈ toList st.root, ¬ z < x)
    ∧ (∀ y, Prev x st = some y →
        y ∈ toList st.root ∧ y < x ∧ ∀ z ∈ toList st.root, z < x → z ≤ y)
    ∧ Next 0 emptyTree = none
    ∧ Next 0 (Insert false BalanceAvl 5 emptyTree) = some 5
    ∧ Prev 5 (Insert false BalanceAvl 5 emptyTree) = none := by
  refine ⟨?_, ?_, ?_, ?_, by decide, by decide, by decide⟩
  · rw [Next_eq_minGt x st hb]
    exact minGt_eq_none x _
  · intro y hy
    rw [Next_eq_minGt x st hb] at hy
    obtain ⟨hm, hlt⟩ := minGt_mem x _ y hy
    exact ⟨hm, hlt, minGt_le x _ y hy⟩
  · rw [Prev_eq_maxLt x st hb]
    exact maxLt_eq_none x _
  · intro y hy
    rw [Prev_eq_maxLt x st hb] at hy
    obtain ⟨hm, hlt⟩ := maxLt_mem x _ y hy
    exact ⟨hm, hlt, maxLt_ge x _ y hy⟩

theorem c5_witness :
    Next 0 (TreeState.mk (node 5 1 1 1 nil nil) 1) = none ↔
      ∀ z ∈ toList (TreeState.mk (node 5 1 1 1 nil nil) 1).root,
        ¬ (0 : Int) < z :=
  (c5_next_prev_spec ⟨node 5 1 1 1 nil nil, 1⟩ 0 (by decide)).1

/-- C6: a single rotation applied to a subtree whose pivot child is present
(the only situation in which the rebalancing logic applies one) leaves the
in-order value sequence of that subtree unchanged, for the rotation pair of
both the AVL variant and the order-statistics variant. -/
theorem c6_rotations_preserve_inorder (t : Node) :
    (t.left ≠ nil →
      toList (RotateRight RenewNodesHeightAvl t) = toList t
      ∧ toList (RotateRight RenewNodesHeightWithSize t) = toList t)
    ∧ (t.right ≠ nil →
      toList (RotateLeft RenewNodesHeightAvl t) = toList t
      ∧ toList (RotateLeft RenewNodesHeightWithSize t) = toList t) := by
  constructor
  · intro _
    constructor
    · rw [toList_eq_map_fst, toList_eq_map_fst,
        toVC_RotateRight _ toVC_RenewNodesHeightAvl]
    · rw [toList_eq_map_fst, toList_eq_map_fst,
        toVC_RotateRight _ toVC_RenewNodesHeightWithSize]
  · intro _
    constructor
    · rw [toList_eq_map_fst, toList_eq_map_fst,
        toVC_RotateLeft _ toVC_RenewNodesHeightAvl]
    · rw [toList_eq_map_fst, toList_eq_map_fst,
        toVC_RotateLeft _ toVC_RenewNodesHeightWithSize]

theorem c6_witness :
    (node 2 1 2 1 (node 1 1 1 1 nil nil) nil : Node).left ≠ nil
    ∧ toList (RotateRight RenewNodesHeightAvl
        (node 2 1 2 1 (node 1 1 1 1 nil nil) nil))
      = toList (node 2 1 2 1 (node 1 1 1 1 nil nil) nil) :=
  ⟨by decide,
   ((c6_rotations_preserve_inorder
      (node 2 1 2 1 (node 1 1 1 1 nil nil) nil)).1 (by decide)).1⟩

/-- C7: after every sequence of Insert and Erase operations that returns
(does not crash), the resulting state satisfies the BST order invariant, in
both modes and for all three hook variants (base engine, AVL, AVL with
subtree sizes); since every prefix of a run is a run, the invariant holds
after each operation. -/
theorem c7_bst_invariant (m : Bool) (ops : List Op) (st : TreeState) :
    (RunOps m BalanceAvl ops emptyTree = some st → bstB st.root = true)
    ∧ (RunOps m BalanceWithSize ops emptyTree = some st →
        bstB st.root = true)
    ∧ (RunOps m BalanceBase ops emptyTree = some st → bstB st.root = true) :=
  ⟨bstB_RunOps m BalanceAvl toVC_BalanceAvl ops st,
   bstB_RunOps m BalanceWithSize toVC_BalanceWithSize ops st,
   bstB_RunOps m BalanceBase toVC_BalanceBase ops st⟩

theorem c7_witness :
    bstB (TreeState.mk
      (node 2 1 2 1 (node 1 1 1 1 nil nil) (node 3 1 1 1 nil nil)) 3).root
      = true :=
  (c7_bst_invariant false [Op.ins 2, Op.ins 1, Op.ins 3]
    ⟨node 2 1 2 1 (node 1 1 1 1 nil nil) (node 3 1 1 1 nil nil), 3⟩).1
    (by decide)

/-- C8: inserting 10, 2, 6, 8, 3, 6, 1, 9, 3, 15, 13, 11, 12, 18 in this
order into the multiset-disabled order-statistics tree yields a state where
Prev 8 returns an iterator to 6 and the in-order sequence is exactly
1, 2, 3, 6, 8, 9, 10, 11, 12, 13, 15, 18. -/
theorem c8_order_statistics_scenario :
    (RunOps false BalanceWithSize
        ([10, 2, 6, 8, 3, 6, 1, 9, 3, 15, 13, 11, 12, 18].map Op.ins)
        emptyTree).map (fun st => (Prev 8 st, toList st.root))
      = some (some 6, [1, 2, 3, 6, 8, 9, 10, 11, 12, 13, 15, 18]) := by
  decide

/-- C9 counterexample: a set-mode insert of the already present value 3, in
the reachable state left by inserting 1..5 and erasing 1, rebuilds the tree
(the root changes from 2 to 4 through a rotation), so it is not a no-op on
the tree object even though the value was present. -/
theorem c9_counterexample_not_noop :
    RunOps false BalanceAvl
        [Op.ins 1, Op.ins 2, Op.ins 3, Op.ins 4, Op.ins 5, Op.del 1] emptyTree
      = some ⟨node 2 1 3 1 nil
          (node 4 1 2 1 (node 3 1 1 1 nil nil) (node 5 1 1 1 nil nil)), 5⟩
    ∧ (3 : Int) ∈ toList (node 2 1 3 1 nil
        (node 4 1 2 1 (node 3 1 1 1 nil nil) (node 5 1 1 1 nil nil)))
    ∧ (InsertRecursive false BalanceAvl 3 (node 2 1 3 1 nil
        (node 4 1 2 1 (node 3 1 1 1 nil nil) (node 5 1 1 1 nil nil)))).1
      = node 4 1 3 1 (node 2 1 2 1 nil (node 3 1 1 1 nil nil))
          (node 5 1 1 1 nil nil)
    ∧ node 4 1 3 1 (node 2 1 2 1 nil (node 3 1 1 1 nil nil))
          (node 5 1 1 1 nil nil)
      ≠ node 2 1 3 1 nil
          (node 4 1 2 1 (node 3 1 1 1 nil nil) (node 5 1 1 1 nil nil)) := by
  refine ⟨?_, by decide, by decide, by decide⟩
  simp [RunOps, Insert, InsertRecursive, CreateNode, emptyTree, Erase,
    EraseRecursive_node, EraseIfFound_nilLeft, BalanceAvl, BalanceNode,
    RenewNodesHeightAvl, NodeHeight, HeightDiff, LeftRotation, RightRotation,
    RotateLeft, RotateRight, InsertIfFound]

/-- C9 amended: inserting a value already present in a BST state increments
that node's occurrence count in multiset mode and leaves every (value,
count) pair unchanged in set mode; in both modes it creates no node, leaves
the in-order sequence and Size() unchanged, and whenever the stored heights
are accurate and the tree is balanced (the intended AVL invariant) the
set-mode insert leaves the state entirely unchanged; the multiset scenario
insert 7 twice gives Size() 1 and Exsist 7 true.  Tree shape may still
change in states violating the AVL invariant, which are reachable because
the erase path never rebalances. -/
theorem c9_insert_found_amended (st : TreeState) (v : Int)
    (hb : bstB st.root = true) (hv : v ∈ toList st.root) :
    Size (Insert true BalanceAvl v st) = Size st
    ∧ numNodes (Insert true BalanceAvl v st).root = numNodes st.root
    ∧ toList (Insert true BalanceAvl v st).root = toList st.root
    ∧ cntOf v (Insert true BalanceAvl v st).root = cntOf v st.root + 1
    ∧ Size (Insert false BalanceAvl v st) = Size st
    ∧ numNodes (Insert false BalanceAvl v st).root = numNodes st.root
    ∧ toVC (Insert false BalanceAvl v st).root = toVC st.root
    ∧ (heightsOkB st.root = true → balancedB st.root = true →
        Insert false BalanceAvl v st = st)
    ∧ Size (Insert true BalanceAvl 7 (Insert true BalanceAvl 7 emptyTree)) = 1
    ∧ Exsist 7 (Insert true BalanceAvl 7 (Insert true BalanceAvl 7 emptyTree))
        = true := by
  have hpair : ((toVC st.root).map Prod.fst).Pairwise (· < ·) := by
    rw [← toList_eq_map_fst, ← bstB_iff_pairwise]
    exact hb
  have hvm : v ∈ (toVC st.root).map Prod.fst := hv
  have hmt := InsertRecursive_spec true BalanceAvl toVC_BalanceAvl v st.root hb
  have hmf := InsertRecursive_spec false BalanceAvl toVC_BalanceAvl v st.root hb
  refine ⟨?_, ?_, ?_, ?_, ?_, ?_, ?_, ?_, by decide, by decide⟩
  · rw [Size, Size, Insert_size, hmt.2, if_pos hv]
    omega
  · rw [Insert_root, numNodes_eq_length_toVC, numNodes_eq_length_toVC,
      hmt.1, length_insVC_mem true v _ hpair hvm]
  · rw [Insert_root, toList_eq_map_fst, toList_eq_map_fst, hmt.1,
      map_fst_insVC_mem true v _ hpair hvm]
  · rw [Insert_root, cntOf, cntOf, hmt.1,
      cntOfL_insVC_self v _ hpair hvm]
  · rw [Size, Size, Insert_size, hmf.2, if_pos hv]
    omega
  · rw [Insert_root, numNodes_eq_length_toVC, numNodes_eq_length_toVC,
      hmf.1, length_insVC_mem false v _ hpair hvm]
  · rw [Insert_root, hmf.1, insVC_set_found v _ hpair hvm]
  · intro hh hba
    have hid := InsertRecursive_found_id v st.root hb hh hba hv
    cases st with
    | mk rt sz =>
        show Insert false BalanceAvl v ⟨rt, sz⟩ = ⟨rt, sz⟩
        unfold Insert
        rw [hid]
        simp

theorem c9_insert_found_amended_witness :
    Size (Insert true BalanceAvl 7
        (TreeState.mk (node 7 1 1 1 nil nil) 1))
      = Size (TreeState.mk (node 7 1 1 1 nil nil) 1)
    ∧ Insert false BalanceAvl 7 (TreeState.mk (node 7 1 1 1 nil nil) 1)
      = TreeState.mk (node 7 1 1 1 nil nil) 1 :=
  ⟨(c9_insert_found_amended ⟨node 7 1 1 1 nil nil, 1⟩ 7 (by decide)
      (by decide)).1,
   (c9_insert_found_amended ⟨node 7 1 1 1 nil nil, 1⟩ 7 (by decide)
      (by decide)).2.2.2.2.2.2.2.1 (by decide) (by decide)⟩

/-- C10: in set mode every stored occurrence count equals exactly 1 after
every crash-free sequence of Insert and Erase operations, for all three hook
variants: duplicate inserts do not increment counts, freshly created nodes
start at 1, and the erase-path swap only exchanges existing counts. -/
theorem c10_cnt_always_one (ops : List Op) (st : TreeState) :
    (RunOps false BalanceAvl ops emptyTree = some st →
      allCntOneB st.root = true)
    ∧ (RunOps false BalanceWithSize ops emptyTree = some st →
      allCntOneB st.root = true)
    ∧ (RunOps false BalanceBase ops emptyTree = some st →
      allCntOneB st.root = true) :=
  ⟨allCntOneB_RunOps BalanceAvl toVC_BalanceAvl ops st,
   allCntOneB_RunOps BalanceWithSize toVC_BalanceWithSize ops st,
   allCntOneB_RunOps BalanceBase toVC_BalanceBase ops st⟩

theorem c10_witness :
    allCntOneB (TreeState.mk
      (node 2 1 2 1 (node 1 1 1 1 nil nil) (node 3 1 1 1 nil nil)) 3).root
      = true :=
  (c10_cnt_always_one [Op.ins 2, Op.ins 1, Op.ins 3, Op.ins 2]
    ⟨node 2 1 2 1 (node 1 1 1 1 nil nil) (node 3 1 1 1 nil nil), 3⟩).1
    (by decide)

end AvlSpec
